import Mathlib

/-!
# Verification of the Koine grammar-processing pipeline

A shallow embedding, in Lean 4, of the parts of `koine/parser.py` that the
frozen claims are about:

* the post-parse cleanup pass (`_ParserCore._cleanup_ast`),
* the runtime error conversion in `_ParserCore._parse_internal`,
* the AST builder fragments of `AstBuilderVisitor.generic_visit`
  (left-associative operator folding, default named-children creation),
* the stateful lexer (`StatefulLexer.tokenize`) with its longest-match
  selection and indentation stack,
* the PEG transpiler (`transpile_rule`, `transpile_grammar`),
* the always-empty lint (`_is_def_always_empty`,
  `_check_for_always_empty_rules`),
* the position finder (`LineColumnFinder.find`).

Python's dynamic dictionary values are modelled by the inductive type
`PVal`; machine-level details that do not matter to the claims (regular
expression engines, file IO, the parsimonious PEG matcher) appear as
abstract function parameters or as explicit outcome arguments.
-/

/-- A Python value as used by the koine AST machinery: strings, integers,
booleans, `None`, lists and (insertion-ordered) dicts. -/
inductive PVal where
  | str (s : String)
  | int (n : Int)
  | bool (b : Bool)
  | null
  | list (xs : List PVal)
  | dict (entries : List (String × PVal))
deriving Repr

/-- Association-list lookup, modelling Python `d[k]` / `d.get(k)` for the
dict entries of a `PVal.dict` (first matching key wins; koine never builds
a dict with duplicate keys). -/
def lookupEntries : List (String × PVal) → String → Option PVal
  | [], _ => none
  | (k, v) :: rest, key => if k = key then some v else lookupEntries rest key

/-- Python `d.get(k)` on a `PVal`: `none` when the value is not a dict or
the key is absent. -/
def pvLookup : PVal → String → Option PVal
  | .dict entries, k => lookupEntries entries k
  | _, _ => none

/-- `isinstance(v, dict)`. -/
def PVal.isDict : PVal → Bool
  | .dict _ => true
  | _ => false

/-- `v is None`. -/
def PVal.isNull : PVal → Bool
  | .null => true
  | _ => false

/-- Python `v in (None, [])`: the placeholder test used by the visitor. -/
def PVal.isNullOrEmptyList : PVal → Bool
  | .null => true
  | .list [] => true
  | _ => false

/-- Python `'__' in s` on the character list of `s`: two consecutive
underscores occur somewhere. -/
def hasSepChars : List Char → Bool
  | c1 :: c2 :: rest => (c1 = '_' && c2 = '_') || hasSepChars (c2 :: rest)
  | _ => false

/-- `'__' in s` for a Lean string. -/
def strHasSep (s : String) : Bool := hasSepChars s.data

/-- `isinstance(item, dict) and '__' in item.get('tag', '')`: the test
`_cleanup_ast` applies to decide whether a child is an internal node.
(The source would raise `TypeError` on a non-string tag; koine tags are
always strings, and a non-string tag is treated as not internal here.) -/
def sepTagged (v : PVal) : Bool :=
  match v with
  | .dict entries =>
    match lookupEntries entries "tag" with
    | some (.str s) => strHasSep s
    | _ => false
  | _ => false

/-- `'tag' in node` for a dict's entry list. -/
def hasKeyE (entries : List (String × PVal)) (key : String) : Bool :=
  entries.any (fun p => p.1 = key)

mutual

/-- `_ParserCore._cleanup_ast`: the post-parse pass that removes internal
(`__`-tagged) nodes.  Faithful to the source: a list drops `__`-tagged
items and cleans the rest; a dict carrying a `tag` key is copied with only
its `children` value cleaned (other values, including the `op`, `left` and
`right` of `binary_op` nodes, are left untouched); a dict without a `tag`
key (a named-children mapping) drops keys whose value is `__`-tagged and
cleans the remaining values; primitives are returned as-is. -/
def cleanupAst : PVal → PVal
  | .list items => .list (cleanupList items)
  | .dict entries =>
    if hasKeyE entries "tag" then .dict (cleanupTagged entries)
    else .dict (cleanupUntagged entries)
  | v => v

/-- The list branch of `_cleanup_ast`. -/
def cleanupList : List PVal → List PVal
  | [] => []
  | item :: rest =>
    if sepTagged item then cleanupList rest
    else cleanupAst item :: cleanupList rest

/-- The tagged-dict branch: `node.copy()` with only the `children` value
cleaned. -/
def cleanupTagged : List (String × PVal) → List (String × PVal)
  | [] => []
  | (k, v) :: rest =>
    (if k = "children" then (k, cleanupAst v) else (k, v)) :: cleanupTagged rest

/-- The untagged-dict branch: drop entries whose value is an internal node,
clean the rest. -/
def cleanupUntagged : List (String × PVal) → List (String × PVal)
  | [] => []
  | (k, v) :: rest =>
    if sepTagged v then cleanupUntagged rest
    else (k, cleanupAst v) :: cleanupUntagged rest

end

mutual

/-- Whether a `__`-separated tag occurs anywhere in a value, looking
through every list element and every dict value (including `op`, `left`
and `right` of `binary_op` nodes).  This is the reachability notion of the
no-internal-tags invariant. -/
def deepHasSepTag : PVal → Bool
  | .list xs => deepHasSepTagList xs
  | .dict entries => sepTagged (.dict entries) || deepHasSepTagEntries entries
  | _ => false

/-- `deepHasSepTag` over a list of values. -/
def deepHasSepTagList : List PVal → Bool
  | [] => false
  | x :: xs => deepHasSepTag x || deepHasSepTagList xs

/-- `deepHasSepTag` over dict entries. -/
def deepHasSepTagEntries : List (String × PVal) → Bool
  | [] => false
  | (_, v) :: rest => deepHasSepTag v || deepHasSepTagEntries rest

end

/-! ## Lexer (`StatefulLexer`) -/

/-- A lexed token: `Token(type, value, line, col)`.  The `type` is an
`Option` because a token spec need not declare a `token` name (skip and
indent specs do not). -/
structure Token where
  type : Option String
  value : List Char
  line : Nat
  col : Nat
deriving Repr, DecidableEq

/-- The runtime lexer failures: `SyntaxError` for an unexpected character,
`IndentationError` for an inconsistent dedent.  `emptyStack` models the
unreachable `indent_stack[-1]` on an empty stack, and `fuelOut` stands for
non-termination of the source loop (possible only when a spec matches the
empty string, which also loops forever in the source). -/
inductive LexErr where
  | unexpectedChar (line col : Nat) (ch : Char)
  | indentation (line : Nat)
  | emptyStack (line : Nat)
  | fuelOut
deriving Repr, DecidableEq

/-- One compiled token spec `(re.compile(spec['regex']), spec.get('action'),
spec.get('token'))`.  The regex engine is external, so an anchored match at
a position is abstracted as `matchAt text pos`, returning the matched
characters (a prefix of `text.drop pos`) or `none`. -/
structure TokenSpec where
  matchAt : List Char → Nat → Option (List Char)
  action : Option String
  tok : Option String

/-- The body of the spec-selection loop (lines 57-59): keep the best match
so far, replacing it only when the spec at index `i` matches strictly
longer than the current best. -/
def selStep (text : List Char) (pos : Nat) (i : Nat) (sp : TokenSpec)
    (best : Option (Nat × TokenSpec × List Char)) :
    Option (Nat × TokenSpec × List Char) :=
  match sp.matchAt text pos, best with
  | some v, none => some (i, sp, v)
  | some v, some (bi, bs, bv) =>
    if v.length > bv.length then some (i, sp, v) else some (bi, bs, bv)
  | none, b => b

/-- The spec-selection loop of `StatefulLexer.tokenize` (lines 55-59): walk
the specs in declaration order applying `selStep` at each.  The running
index records each spec's position in the declaration list. -/
def selectLoop (text : List Char) (pos : Nat) :
    List TokenSpec → Nat → Option (Nat × TokenSpec × List Char) →
    Option (Nat × TokenSpec × List Char)
  | [], _, best => best
  | sp :: rest, i, best => selectLoop text pos rest (i + 1) (selStep text pos i sp best)

/-- Pick the winning spec at `pos`: longest match, earliest spec on ties. -/
def selectBest (specs : List TokenSpec) (text : List Char) (pos : Nat) :
    Option (Nat × TokenSpec × List Char) :=
  selectLoop text pos specs 0 none

/-- The dedent part of the `handle_indent` action (lines 76-81): pop and
emit one DEDENT while the new width is below the stack top; after popping,
the width must equal the new top.  The stack is kept top-first. -/
def dedentLoop : List Nat → Nat → Nat → Except LexErr (List Nat × List Token)
  | [], _, lineNum => .error (.emptyStack lineNum)
  | top :: rest, lvl, lineNum =>
    if lvl < top then
      match dedentLoop rest lvl lineNum with
      | .error e => .error e
      | .ok (s, ts) => .ok (s, ⟨some "DEDENT", [], lineNum + 1, 1⟩ :: ts)
    else if lvl ≠ top then .error (.indentation (lineNum + 1))
    else .ok (top :: rest, [])

/-- The full `handle_indent` step (lines 67-81): push and emit one INDENT
when the width exceeds the stack top, otherwise run the dedent loop. -/
def handleIndent (stack : List Nat) (lvl : Nat) (lineNum : Nat) :
    Except LexErr (List Nat × List Token) :=
  match stack with
  | [] => .error (.emptyStack lineNum)
  | top :: rest =>
    if lvl > top then .ok (lvl :: top :: rest, [⟨some "INDENT", [], lineNum + 1, 1⟩])
    else dedentLoop (top :: rest) lvl lineNum

/-- End-of-input dedenting (lines 98-101): one DEDENT per remaining stack
level while more than one level remains. -/
def eofDedents : List Nat → Nat → List Token
  | [], _ => []
  | [_], _ => []
  | _ :: rest, lineNum => ⟨some "DEDENT", [], lineNum, 1⟩ :: eofDedents rest lineNum

/-- `str.expandtabs(tabWidth)`: replace each tab by spaces up to the next
multiple of `tabWidth`, tracking the current column and resetting it on
newlines and carriage returns. -/
def expandtabsList (tw : Nat) : List Char → Nat → List Char
  | [], _ => []
  | c :: rest, col =>
    if c = '\t' then
      if tw = 0 then expandtabsList tw rest col
      else
        let n := tw - col % tw
        List.replicate n ' ' ++ expandtabsList tw rest (col + n)
    else if c = '\n' || c = '\r' then c :: expandtabsList tw rest 0
    else c :: expandtabsList tw rest (col + 1)

/-- `value.rfind('\n')`: index of the last newline in `value` (meaningful
only when one exists, which is the only case the source uses it in). -/
def rfindNl (value : List Char) : Nat :=
  value.length - 1 - value.reverse.findIdx (fun c => c = '\n')

/-- The main loop of `StatefulLexer.tokenize` (lines 54-95), fuel-indexed.
State: position, indent stack (top first), current line number, offset of
the current line start, and the tokens emitted so far. -/
def tokenizeLoop (specs : List TokenSpec) (handles : Bool) (text : List Char) :
    Nat → Nat → List Nat → Nat → Nat → List Token → Except LexErr (List Token)
  | 0, _, _, _, _, _ => .error .fuelOut
  | fuel + 1, pos, stack, lineNum, lineStart, acc =>
    if h : pos < text.length then
      match selectBest specs text pos with
      | none => .error (.unexpectedChar lineNum (pos - lineStart + 1) (text.get ⟨pos, h⟩))
      | some (_, sp, value) =>
        let col := pos - lineStart + 1
        let stepped : Except LexErr (List Nat × List Token) :=
          if sp.action = some "handle_indent" then
            -- the match is a newline plus trailing whitespace; its width is
            -- `len(value) - 1`
            handleIndent stack (value.length - 1) lineNum
          else if sp.action = some "skip" then .ok (stack, [])
          else .ok (stack, [⟨sp.tok, value, lineNum, col⟩])
        match stepped with
        | .error e => .error e
        | .ok (stack2, newToks) =>
          let nl := value.count '\n'
          let lineNum2 := if nl > 0 then lineNum + nl else lineNum
          let lineStart2 := if nl > 0 then pos + rfindNl value + 1 else lineStart
          tokenizeLoop specs handles text fuel (pos + value.length) stack2
            lineNum2 lineStart2 (acc ++ newToks)
    else
      .ok (if handles then acc ++ eofDedents stack lineNum else acc)

/-- `StatefulLexer.tokenize`: expand tabs (default width 8), then run the
loop from position 0 with indent stack `[0]`, line 1, line start 0.  Fuel
`|text| + 1` suffices whenever every selected match is non-empty. -/
def tokenize (specs : List TokenSpec) (text : List Char) : Except LexErr (List Token) :=
  let t := expandtabsList 8 text 0
  let handles := specs.any (fun s => s.action = some "handle_indent")
  tokenizeLoop specs handles t (t.length + 1) 0 [0] 1 0 []

/-- A concrete identifier spec: the anchored regex `[a-z]+`. -/
def nameMatchAt (text : List Char) (pos : Nat) : Option (List Char) :=
  let run := (text.drop pos).takeWhile (fun c => 'a' ≤ c && c ≤ 'z')
  if run.isEmpty then none else some run

/-- A concrete indentation spec: the anchored regex `\n[ ]*`. -/
def indentMatchAt (text : List Char) (pos : Nat) : Option (List Char) :=
  match text.drop pos with
  | '\n' :: rest => some ('\n' :: rest.takeWhile (fun c => c = ' '))
  | _ => none

/-- The lexer configuration of the indentation scenario: an identifier
token spec and a `handle_indent` newline spec. -/
def c5Specs : List TokenSpec :=
  [⟨nameMatchAt, none, some "NAME"⟩, ⟨indentMatchAt, some "handle_indent", none⟩]

/-- The input text of the indentation scenario. -/
def c5Input : List Char := ['a', '\n', ' ', ' ', 'b', '\n', ' ', ' ', 'c', '\n']

/-- The token stream the scenario is claimed to produce. -/
def c5Expected : List Token :=
  [⟨some "NAME", ['a'], 1, 1⟩, ⟨some "INDENT", [], 2, 1⟩, ⟨some "NAME", ['b'], 2, 3⟩,
   ⟨some "NAME", ['c'], 3, 3⟩, ⟨some "DEDENT", [], 4, 1⟩]

/-! ## Position finder (`LineColumnFinder`) -/

/-- The scan in `LineColumnFinder.__init__`: for each newline at index `i`,
record line start `i + 1`. -/
def lineStartsAux : List Char → Nat → List Nat
  | [], _ => []
  | c :: rest, i =>
    if c = '\n' then (i + 1) :: lineStartsAux rest (i + 1)
    else lineStartsAux rest (i + 1)

/-- `self.line_starts`: offset 0 followed by every post-newline offset. -/
def lineStarts (text : List Char) : List Nat := 0 :: lineStartsAux text 0

/-- The clamping of `find` (lines 213-215): negative offsets become 0,
offsets past the end become `len(text)`. -/
def clampOffset (text : List Char) (offset : Int) : Nat :=
  let o1 : Int := if offset < 0 then 0 else offset
  if o1 > (text.length : Int) then text.length else o1.toNat

/-- `bisect.bisect_right` on an ascending list: the number of elements
that are ≤ the probe (the insertion point after any equal elements). -/
def bisectRight (l : List Nat) (x : Nat) : Nat :=
  l.countP (fun s => decide (s ≤ x))

/-- `LineColumnFinder.find`: clamp, bisect for the 1-based line number,
and compute the 1-based column from the found line start. -/
def findLC (text : List Char) (offset : Int) : Nat × Nat :=
  let offN := clampOffset text offset
  let starts := lineStarts text
  let lineNum := bisectRight starts offN
  (lineNum, offN - starts.getD (lineNum - 1) 0 + 1)

/-! ## Grammar rule model -/

/-- A rule's `ast` directive.  Each field is `some _` exactly when the
corresponding key is present in the Python dict (so `discard: false` is
`some false`). -/
structure AstConfig where
  name : Option String := none
  tag : Option String := none
  discard : Option Bool := none
  promote : Option Bool := none
  leaf : Option Bool := none
  astType : Option String := none
  -- the `structure` key; only its presence matters to the embedded code
  struct : Option Bool := none
deriving Repr, DecidableEq

/-- The keys present in an `ast` dict (Python `list(ast.keys())`, up to
order, which none of the embedded code depends on). -/
def astKeys (c : AstConfig) : List String :=
  (if c.name.isSome then ["name"] else []) ++
  (if c.tag.isSome then ["tag"] else []) ++
  (if c.discard.isSome then ["discard"] else []) ++
  (if c.promote.isSome then ["promote"] else []) ++
  (if c.leaf.isSome then ["leaf"] else []) ++
  (if c.astType.isSome then ["type"] else []) ++
  (if c.struct.isSome then ["structure"] else [])

/-- Python truthiness of `d.get(key)` for a boolean-valued key. -/
def truthy : Option Bool → Bool
  | some b => b
  | none => false

mutual

/-- A rule node: a tagged variant over the shape keys, each carrying the
optional `ast` directive that may sit on the same dict. -/
inductive RuleNode where
  | lit (s : String) (ast : Option AstConfig)
  | regex (s : String) (ast : Option AstConfig)
  | ruleRef (name : String) (ast : Option AstConfig)
  | tok (t : String) (ast : Option AstConfig)
  | choice (xs : RuleList) (ast : Option AstConfig)
  | seq (xs : RuleList) (ast : Option AstConfig)
  | zeroOrMore (x : RuleNode) (ast : Option AstConfig)
  | oneOrMore (x : RuleNode) (ast : Option AstConfig)
  | opt (x : RuleNode) (ast : Option AstConfig)
  | posLook (x : RuleNode) (ast : Option AstConfig)
  | negLook (x : RuleNode) (ast : Option AstConfig)
  | subgrammar (ast : Option AstConfig)

/-- A list of rule nodes (kept as a mutual inductive so that structural
recursion and induction over rule trees stay primitive). -/
inductive RuleList where
  | nil
  | cons (head : RuleNode) (tail : RuleList)

end

/-- The `ast` dict attached to a node, when present. -/
def RuleNode.astOf : RuleNode → Option AstConfig
  | .lit _ a | .regex _ a | .ruleRef _ a | .tok _ a | .choice _ a | .seq _ a
  | .zeroOrMore _ a | .oneOrMore _ a | .opt _ a | .posLook _ a | .negLook _ a
  | .subgrammar a => a

/-- `RuleList` length. -/
def RuleList.length : RuleList → Nat
  | .nil => 0
  | .cons _ t => t.length + 1

/-- `RuleList` to an ordinary list. -/
def RuleList.toList : RuleList → List RuleNode
  | .nil => []
  | .cons h t => h :: t.toList

/-- A token spec as written in the grammar's `lexer.tokens` list (the
declaration-level view used by the linter, as opposed to the compiled
`TokenSpec` used at runtime). -/
structure LexSpecDecl where
  tok : Option String := none
  action : Option String := none
  ast : Option AstConfig := none

/-- The normalized grammar dict as the linter and transpiler see it:
an ordered rule map plus the optional lexer block. -/
structure GrammarDict where
  rules : List (String × RuleNode)
  lexer : Option (List LexSpecDecl) := none

/-- `grammar_dict['rules'].get(name)`. -/
def lookupRule (g : GrammarDict) (name : String) : Option RuleNode :=
  match g.rules.find? (fun p => p.1 = name) with
  | some p => some p.2
  | none => none

/-! ## PEG transpiler (`transpile_rule`, `transpile_grammar`) -/

/-- `is_just_a_name`: the `ast` block has exactly the key `name`. -/
def isJustAName (c : AstConfig) : Bool :=
  (astKeys c).length = 1 && (astKeys c).contains "name"

/-- Concatenate with a separator. -/
def joinSep (sep : String) : List String → String
  | [] => ""
  | [s] => s
  | s :: rest => s ++ sep ++ joinSep sep rest

mutual

/-- `transpile_rule`: render one rule node as a parsimonious grammar
fragment.  `isTok` is `is_token_grammar`.  Python `ValueError`s become
`Except.error`. -/
def transpileRuleN (r : RuleNode) (isTok : Bool) : Except String String :=
  match r with
  | .subgrammar _ =>
    -- a leftover `subgrammar` placeholder matches the empty string
    .ok "(\"\")?"
  | .tok t _ => .ok t
  | .lit s _ =>
    if isTok then
      .error "'literal' is not supported when a lexer is defined. Use 'token' instead."
    else .ok ("\"" ++ s.replace "\"" "\\\"" ++ "\"")
  | .regex s _ =>
    if isTok then
      .error "'regex' is not supported when a lexer is defined. Use 'token' instead."
    else .ok ("~r\"" ++ s.replace "\"" "\\\"" ++ "\"")
  | .ruleRef v a =>
    -- a rule reference carrying an ast block with more than just `name`
    -- is wrapped to defeat the single-item optimization
    match a with
    | some cfg => if isJustAName cfg then .ok v else .ok ("(" ++ v ++ " (\"\")?)")
    | none => .ok v
  | .choice xs _ =>
    match xs with
    | .nil => .error "Choice cannot be empty"
    | _ => do
      let parts ← transpileParts xs isTok
      .ok ("(" ++ joinSep " / " parts ++ ")")
  | .seq xs _ =>
    match xs with
    | .nil => .ok "(\"\")?"
    | _ => do
      let parts ← transpileParts xs isTok
      if parts.length = 1 then .ok ("(" ++ joinSep " " parts ++ " (\"\")?)")
      else .ok ("(" ++ joinSep " " parts ++ ")")
  | .zeroOrMore x _ => do
    let s ← transpileRuleN x isTok
    .ok ("(" ++ s ++ ")*")
  | .oneOrMore x _ => do
    let s ← transpileRuleN x isTok
    .ok ("(" ++ s ++ ")+")
  | .opt x _ => do
    let s ← transpileRuleN x isTok
    .ok ("(" ++ s ++ ")?")
  | .posLook x _ => do
    let s ← transpileRuleN x isTok
    .ok ("&(" ++ s ++ ")")
  | .negLook x _ => do
    let s ← transpileRuleN x isTok
    .ok ("!(" ++ s ++ ")")

/-- Transpile each part of a `choice`/`sequence` list, propagating the
first error. -/
def transpileParts (xs : RuleList) (isTok : Bool) : Except String (List String) :=
  match xs with
  | .nil => .ok []
  | .cons h t => do
    let s ← transpileRuleN h isTok
    let rest ← transpileParts t isTok
    .ok (s :: rest)

end

/-- The `name = body` lines of `transpile_grammar`, propagating the first
`transpile_rule` error. -/
def transpileGrammarLines (isTok : Bool) : List (String × RuleNode) → Except String (List String)
  | [] => .ok []
  | (n, r) :: rest => do
    let b ← transpileRuleN r isTok
    let more ← transpileGrammarLines isTok rest
    .ok ((n ++ " = " ++ b) :: more)

/-- First-occurrence deduplication, standing in for the Python set of
declared token types (whose iteration order is unspecified). -/
def dedupFirst : List String → List String
  | [] => []
  | s :: rest => s :: (dedupFirst rest).filter (fun x => x ≠ s)

/-- `transpile_grammar`: one line per rule, plus, when a lexer is present,
one synthetic rule per declared token type and for INDENT/DEDENT. -/
def transpileGrammarStr (g : GrammarDict) : Except String String := do
  let isTok := g.lexer.isSome
  let lines ← transpileGrammarLines isTok g.rules
  let lines2 :=
    match g.lexer with
    | none => lines
    | some specs =>
      let tokTypes := dedupFirst ((specs.filterMap (fun s => s.tok)) ++ ["INDENT", "DEDENT"])
      lines ++ tokTypes.map (fun t => t ++ " = ~r\"" ++ t ++ "\\s*\"")
  .ok (joinSep "\n" lines2)

mutual

/-- Whether a rule body contains an empty `choice: []` anywhere the
transpiler will visit (the transpiler does not descend into `subgrammar`
placeholders). -/
def containsEmptyChoiceN : RuleNode → Bool
  | .choice .nil _ => true
  | .choice xs _ => containsEmptyChoiceL xs
  | .seq xs _ => containsEmptyChoiceL xs
  | .zeroOrMore x _ | .oneOrMore x _ | .opt x _ | .posLook x _ | .negLook x _ =>
    containsEmptyChoiceN x
  | _ => false

/-- `containsEmptyChoiceN` over a part list. -/
def containsEmptyChoiceL : RuleList → Bool
  | .nil => false
  | .cons h t => containsEmptyChoiceN h || containsEmptyChoiceL t

end

/-! ## Always-empty lint (`_is_def_always_empty` and friends) -/

/-- The memo table keyed by rule name (`memo` in the source). -/
def Memo := List (String × Bool)

/-- Memo lookup. -/
def memoLookup : List (String × Bool) → String → Option Bool
  | [], _ => none
  | (k, b) :: rest, key => if k = key then some b else memoLookup rest key

/-- Memo write (`memo[name] = b`): overwrite in place or append. -/
def memoInsert : List (String × Bool) → String → Bool → List (String × Bool)
  | [], key, b => [(key, b)]
  | (k, v) :: rest, key, b =>
    if k = key then (k, b) :: rest else (k, v) :: memoInsert rest key b

/-- The token base case of `_is_def_always_empty` (lines 830-834): a token
whose first matching lexer spec has action `skip` or a truthy
`ast.discard` is empty; an undeclared token is not. -/
def tokenSpecEmpty (specs : List LexSpecDecl) (t : String) : Bool :=
  match specs.find? (fun sp => sp.tok = some t) with
  | some sp =>
    sp.action = some "skip" ||
      truthy (sp.ast.bind (fun a => a.discard))
  | none => false

/-- `any(isinstance(part, dict) and 'name' in part.get('ast', {}) for part
in parts)`: some sequence part names a child. -/
def anyPartNamed : RuleList → Bool
  | .nil => false
  | .cons h t => (h.astOf.bind (fun a => a.name)).isSome || anyPartNamed t

mutual

/-- `_ParserCore._is_def_always_empty`, with the memo threaded explicitly
and a fuel bound standing in for the memo-guaranteed termination of the
source (every recursion decrements the fuel, so any fuel exceeding the
rule count times the grammar size reproduces the source exactly; fuel 0
is unreachable then).  The check order follows the source: `discard` →
`structure` → `rule` → `token` (with a lexer) → `literal`/`regex`/`leaf`
→ lookaheads → `choice` → `sequence` → quantifiers → not empty. -/
def isDefAlwaysEmpty (g : GrammarDict) :
    Nat → List (String × Bool) → RuleNode → Bool × List (String × Bool)
  | 0, memo, _ => (false, memo)
  | fuel + 1, memo, r =>
    let ac := r.astOf.getD {}
    if truthy ac.discard then (true, memo)
    else if ac.struct.isSome then (false, memo)
    else
      match r with
      | .ruleRef n _ => isRuleAlwaysEmpty g fuel memo n
      | .tok t _ =>
        match g.lexer with
        | some specs => (tokenSpecEmpty specs t, memo)
        | none => (false, memo)
      | .lit _ _ => (false, memo)
      | .regex _ _ => (false, memo)
      | .posLook _ _ => if truthy ac.leaf then (false, memo) else (true, memo)
      | .negLook _ _ => if truthy ac.leaf then (false, memo) else (true, memo)
      | .choice xs _ =>
        if truthy ac.leaf then (false, memo) else allPartsEmpty g fuel memo xs
      | .seq xs _ =>
        if truthy ac.leaf then (false, memo)
        else if anyPartNamed xs then (false, memo)
        else allPartsEmpty g fuel memo xs
      | .zeroOrMore x _ =>
        if truthy ac.leaf then (false, memo) else isDefAlwaysEmpty g fuel memo x
      | .oneOrMore x _ =>
        if truthy ac.leaf then (false, memo) else isDefAlwaysEmpty g fuel memo x
      | .opt x _ =>
        if truthy ac.leaf then (false, memo) else isDefAlwaysEmpty g fuel memo x
      | .subgrammar _ => (false, memo)

/-- Python `all(...)` over a lazily evaluated generator: stop at the first
non-empty part, keeping the memo updates made so far. -/
def allPartsEmpty (g : GrammarDict) :
    Nat → List (String × Bool) → RuleList → Bool × List (String × Bool)
  | 0, memo, _ => (true, memo)
  | _, memo, .nil => (true, memo)
  | fuel + 1, memo, .cons h t =>
    match isDefAlwaysEmpty g fuel memo h with
    | (false, memo1) => (false, memo1)
    | (true, memo1) => allPartsEmpty g fuel memo1 t

/-- `_ParserCore._is_rule_always_empty`: memoized per-rule classification,
seeding the rule as non-empty before recursing to break cycles. -/
def isRuleAlwaysEmpty (g : GrammarDict) :
    Nat → List (String × Bool) → String → Bool × List (String × Bool)
  | fuel, memo, name =>
    match memoLookup memo name with
    | some b => (b, memo)
    | none =>
      match lookupRule g name with
      | none => (false, memo)
      | some rd =>
        match fuel with
        | 0 => (false, memo)
        | fuel' + 1 =>
          let memo1 := memoInsert memo name false
          let r := isDefAlwaysEmpty g fuel' memo1 rd
          (r.1, memoInsert r.2 name r.1)

end

/-- Is the top-level body of a rule a lookahead? (`is_lookahead_rule` in
`_check_for_always_empty_rules`.) -/
def isLookaheadRule : RuleNode → Bool
  | .posLook _ _ => true
  | .negLook _ _ => true
  | _ => false

/-- The collection loop of `_check_for_always_empty_rules`: skip rules
marked `discard` and rules whose body is a lookahead; collect every other
rule classified always-empty, sharing one memo across the walk. -/
def collectAlwaysEmpty (g : GrammarDict) (fuel : Nat) :
    List (String × RuleNode) → List (String × Bool) → List String
  | [], _ => []
  | (name, rd) :: rest, memo =>
    if truthy ((rd.astOf.getD {}).discard) then collectAlwaysEmpty g fuel rest memo
    else if isLookaheadRule rd then collectAlwaysEmpty g fuel rest memo
    else
      match isRuleAlwaysEmpty g fuel memo name with
      | (true, memo1) => name :: collectAlwaysEmpty g fuel rest memo1
      | (false, memo1) => collectAlwaysEmpty g fuel rest memo1

/-- `_ParserCore._check_for_always_empty_rules`, returning the offender
list (the source raises a `ValueError` naming these rules, sorted, when
the list is non-empty). -/
def checkAlwaysEmptyRules (g : GrammarDict) (fuel : Nat) : List String :=
  collectAlwaysEmpty g fuel g.rules []

/-! ## AST builder fragments (`AstBuilderVisitor.generic_visit`) -/

/-- One step of the `left_associative_op` fold (lines 411-416): filter the
`None`s out of one `[op, rhs]` group, skip the group if nothing is left,
and otherwise wrap the accumulator in a `binary_op` node positioned at the
operator.  `none` models the uncaught Python errors: iterating a non-list
group (`TypeError`), a single-item group (`IndexError`), or an operator
without `line`/`col` (`KeyError`). -/
def laStep (acc : PVal) (group : PVal) : Option PVal :=
  match group with
  | .list items =>
    match items.filter (fun i => !i.isNull) with
    | [] => some acc
    | op :: right :: _ =>
      match pvLookup op "line", pvLookup op "col" with
      | some l, some c =>
        some (.dict [("tag", .str "binary_op"), ("op", op), ("left", acc),
                     ("right", right), ("line", l), ("col", c)])
      | _, _ => none
    | [_] => none
  | _ => none

/-- The `structure: left_associative_op` branch (lines 407-417): the first
visited child is the initial accumulator; the second is the group list to
fold over; with fewer than two children the first child is returned. -/
def leftAssocStructure : List PVal → Option PVal
  | [] => none
  | [left] => some left
  | left :: g :: _ =>
    match g with
    | .list gs => gs.foldlM laStep left
    | _ => none

/-- The shape the spec describes for the fold: nested `binary_op` nodes
`((V1 O1 V2) O2 V3)…`, each carrying its operator's `line`/`col`.
Written from the spec's words for comparison with `leftAssocStructure`. -/
def specLeftFold (v1 : PVal) (pairs : List (PVal × PVal)) : PVal :=
  pairs.foldl
    (fun acc p =>
      .dict [("tag", .str "binary_op"), ("op", p.1), ("left", acc),
             ("right", p.2), ("line", (pvLookup p.1 "line").getD .null),
             ("col", (pvLookup p.1 "col").getD .null)])
    v1

/-- Is a sequence part a lookahead? (line 472). -/
def isLookaheadPart : RuleNode → Bool
  | .posLook _ _ => true
  | .negLook _ _ => true
  | _ => false

/-- Is a sequence part discarded (lines 476-483)?  Either its own `ast`
has a truthy `discard`, or it is a rule reference whose referenced rule's
`ast` has a truthy `discard`. -/
def partDiscarded (g : GrammarDict) (p : RuleNode) : Bool :=
  if truthy (p.astOf.bind (fun a => a.discard)) then true
  else
    match p with
    | .ruleRef n _ =>
      truthy (((lookupRule g n).bind RuleNode.astOf).bind (fun a => a.discard))
    | _ => false

/-- `child_producing_parts` (lines 470-486): the sequence parts that are
neither lookaheads nor discarded. -/
def childProducingParts (g : GrammarDict) (parts : List RuleNode) : List RuleNode :=
  parts.filter (fun p => !isLookaheadPart p && !partDiscarded g p)

/-- Python dict assignment `d[k] = v`: overwrite in place, else append. -/
def dictInsert : List (String × PVal) → String → PVal → List (String × PVal)
  | [], k, v => [(k, v)]
  | (k0, v0) :: rest, k, v =>
    if k0 = k then (k0, v) :: rest else (k0, v0) :: dictInsert rest k v

/-- The named-children loop of default node creation (lines 490-498): the
i-th child-producing part with an `ast.name` is bound to the i-th surviving
visited child, or to the empty list `[]` when there is no i-th child. -/
def buildNamedLoop (children : List PVal) :
    List RuleNode → Nat → List (String × PVal) → List (String × PVal)
  | [], _, acc => acc
  | p :: rest, i, acc =>
    let acc2 :=
      match p.astOf.bind (fun a => a.name) with
      | some n =>
        dictInsert acc n
          (if h : i < children.length then children.get ⟨i, h⟩ else .list [])
      | none => acc
    buildNamedLoop children rest (i + 1) acc2

/-- `named_children` as built for a sequence rule with the given parts and
surviving visited children. -/
def buildNamedChildren (g : GrammarDict) (seqParts : List RuleNode)
    (children : List PVal) : List (String × PVal) :=
  buildNamedLoop children (childProducingParts g seqParts) 0 []

/-! ## Runtime error conversion (`_ParserCore._parse_internal`) -/

/-- The runtime failures `_parse_internal` catches (line 1032): the PEG
matcher's `ParseError` and `IncompleteParseError` (each carrying a byte
offset into the parsed string, and the former the rule names / literals it
expected), and the lexer's `SyntaxError` / `IndentationError` (already
rendered to their messages, as `str(e)` is all the handler uses). -/
inductive RunErr where
  | parseErr (pos : Nat) (expected : List String)
  | incompleteErr (pos : Nat)
  | lexSyntaxErr (message : String)
  | indentErr (message : String)

/-- String form of a natural. -/
def natStr (n : Nat) : String := toString n

/-- `text[pos:pos+20].split('\n')[0]`: the snippet quoted in non-token
error messages. -/
def snippetAt (text : List Char) (pos : Nat) : String :=
  String.mk (((text.drop pos).take 20).takeWhile (fun c => c ≠ '\n'))

/-- Insertion sort on strings, modelling Python `sorted`. -/
def insertSorted (s : String) : List String → List String
  | [] => [s]
  | x :: rest => if s ≤ x then s :: x :: rest else x :: insertSorted s rest

/-- Python `sorted(list(...))` for the expected-rule set. -/
def sortStrings : List String → List String
  | [] => []
  | x :: rest => insertSorted x (sortStrings rest)

/-- The token-grammar error message (lines 1039-1052): recover the failing
token from the byte offset into the space-joined token-type string (the
offset's word index), then report that token, or end-of-input. -/
def tokenErrMessage (tokens : List Token) (pos : Nat) : String :=
  let tokenString := (joinSep " " (tokens.map (fun t => t.type.getD ""))).data
  let errIdx := (tokenString.take pos).count ' '
  match tokens[errIdx]? with
  | some t =>
    "Syntax error at L" ++ natStr t.line ++ ":C" ++ natStr t.col ++ " near '" ++
      String.mk t.value ++ "'. Unexpected token: " ++ t.type.getD "" ++ "."
  | none => "Syntax error at end of input."

/-- The non-token error messages (lines 1054-1079). -/
def textErrMessage (text : List Char) (e : RunErr) : String :=
  match e with
  | .incompleteErr pos =>
    let lc := findLC text pos
    "Syntax error at L" ++ natStr lc.1 ++ ":C" ++ natStr lc.2 ++
      ". Failed to consume entire input. Unconsumed input begins with: '" ++
      snippetAt text pos ++ "...'"
  | .parseErr pos expected =>
    let lc := findLC text pos
    let snippet := snippetAt text pos
    let base := "Syntax error at L" ++ natStr lc.1 ++ ":C" ++ natStr lc.2
    let base2 := if snippet ≠ "" then base ++ " near '" ++ snippet ++ "...'" else base
    if expected ≠ [] then
      base2 ++ ". Expected one of: " ++ joinSep ", " (sortStrings expected) ++ "."
    else if snippet = "" then base2 ++ ". Unexpected end of input."
    else base2
  | .lexSyntaxErr m => m
  | .indentErr m => m

/-- The full message dispatch of the `except` block (lines 1032-1081). -/
def runErrMessage (isTok : Bool) (text : List Char) (tokens : Option (List Token))
    (e : RunErr) : String :=
  match e with
  | .parseErr pos _ =>
    if isTok then
      match tokens with
      | none => "ParseError at position " ++ natStr pos
      | some ts => tokenErrMessage ts pos
    else textErrMessage text e
  | .incompleteErr pos =>
    if isTok then
      match tokens with
      | none => "IncompleteParseError at position " ++ natStr pos
      | some ts => tokenErrMessage ts pos
    else textErrMessage text e
  | .lexSyntaxErr m => m
  | .indentErr m => m

/-- `_ParserCore._parse_internal` after the try-block outcome is known:
`body` is the result of tokenizing, matching and visiting (`Except.error`
when one of the four caught runtime exceptions was raised).  On success
the visited AST is cleaned and wrapped as `{"status": "success", "ast":
…}`; every caught error becomes `{"status": "error", "message": …}`. -/
def parseInternalResult (isTok : Bool) (text : List Char)
    (tokens : Option (List Token)) (body : Except RunErr PVal) : PVal :=
  match body with
  | .ok ast => .dict [("status", .str "success"), ("ast", cleanupAst ast)]
  | .error e =>
    .dict [("status", .str "error"), ("message", .str (runErrMessage isTok text tokens e))]

/-! ## Concrete instances used by counterexamples and witnesses -/

/-- An operand node produced by a normalized anonymous leaf rule: the
synthesized rule name `expr__1` became its tag (no `tag` directive was
given in its hoisted `ast` block). -/
def c1LeftOperand : PVal :=
  .dict [("tag", .str "expr__1"), ("text", .str "1"), ("line", .int 1), ("col", .int 1)]

/-- The operator node of the example. -/
def c1Op : PVal :=
  .dict [("tag", .str "add_op"), ("text", .str "+"), ("line", .int 1), ("col", .int 3)]

/-- The right operand of the example. -/
def c1Right : PVal :=
  .dict [("tag", .str "expr__1"), ("text", .str "2"), ("line", .int 1), ("col", .int 5)]

/-- The `binary_op` node a `left_associative_op` rule builds from these
children (see `laStep`): the `__`-tagged operands sit in `left`/`right`. -/
def c1BinaryOp : PVal :=
  .dict [("tag", .str "binary_op"), ("op", c1Op), ("left", c1LeftOperand),
         ("right", c1Right), ("line", .int 1), ("col", .int 3)]

/-- The source text of the C1 example. -/
def c1Text : List Char := ['1', ' ', '+', ' ', '2']

/-- A rule reference carrying an `ast` block with a key other than
`name`. -/
def c6Node : RuleNode := .ruleRef "X" (some { tag := some "t" })

/-- A rule whose body is a sequence of two lookaheads, naming no child. -/
def c7SeqOfLookaheads : RuleNode :=
  .seq (.cons (.posLook (.lit "a" none) none)
        (.cons (.negLook (.lit "b" none) none) .nil)) none

/-- A grammar with only that rule. -/
def c7Grammar : GrammarDict := { rules := [("s", c7SeqOfLookaheads)] }

/-- A rule whose whole body is a lookahead. -/
def c7LookaheadRule : RuleNode := .posLook (.lit "a" none) none

/-- A grammar with only that rule. -/
def c7Grammar2 : GrammarDict := { rules := [("s2", c7LookaheadRule)] }

/-- A grammar containing an empty `choice: []` rule. -/
def c8Grammar : GrammarDict := { rules := [("start", .choice .nil none)] }

/-- A sequence part carrying `ast: {name: "item"}`. -/
def c10Part : RuleNode := .lit "x" (some { name := some "item" })

/-- The trivial grammar used in the C10 witness. -/
def c10Grammar : GrammarDict := { rules := [] }

/-- A spec matching exactly one character (the regex `.`), declared
first. -/
def c4SpecA : TokenSpec := ⟨fun t p => some ((t.drop p).take 1), none, some "A"⟩

/-- The same single-character matcher declared second. -/
def c4SpecB : TokenSpec := ⟨fun t p => some ((t.drop p).take 1), none, some "B"⟩

/-- Example operand/operator nodes for the C3 witness. -/
def c3V1 : PVal := .dict [("tag", .str "number"), ("value", .int 8), ("line", .int 1), ("col", .int 1)]

/-- First operator of the C3 witness, at (1,3). -/
def c3O1 : PVal := .dict [("tag", .str "sub_op"), ("text", .str "-"), ("line", .int 1), ("col", .int 3)]

/-- Second operand. -/
def c3V2 : PVal := .dict [("tag", .str "number"), ("value", .int 2), ("line", .int 1), ("col", .int 5)]

/-- Second operator, at (1,7). -/
def c3O2 : PVal := .dict [("tag", .str "sub_op"), ("text", .str "-"), ("line", .int 1), ("col", .int 7)]

/-- Third operand. -/
def c3V3 : PVal := .dict [("tag", .str "number"), ("value", .int 1), ("line", .int 1), ("col", .int 9)]

/-! ## Theorems -/

/-- One step of the fold on a well-formed `[op, rhs]` group. -/
theorem laStep_group (acc op v l c : PVal)
    (hop : op.isNull = false) (hv : v.isNull = false)
    (hl : pvLookup op "line" = some l) (hc : pvLookup op "col" = some c) :
    laStep acc (.list [op, v]) =
      some (.dict [("tag", .str "binary_op"), ("op", op), ("left", acc),
                   ("right", v), ("line", l), ("col", c)]) := by
  simp [laStep, List.filter_cons, hop, hv, hl, hc]

/-- The fold over any suffix of well-formed groups agrees with the
spec-side nested fold. -/
theorem laFold_spec (ps : List (PVal × PVal)) (acc : PVal)
    (h : ∀ p ∈ ps, p.1.isNull = false ∧ p.2.isNull = false ∧
      (pvLookup p.1 "line").isSome ∧ (pvLookup p.1 "col").isSome) :
    (ps.map (fun p => PVal.list [p.1, p.2])).foldlM laStep acc =
      some (specLeftFold acc ps) := by
  induction ps generalizing acc with
  | nil => rfl
  | cons p rest ih =>
    obtain ⟨h1, h2, h3, h4⟩ := h p (by simp)
    obtain ⟨l, hl⟩ := Option.isSome_iff_exists.mp h3
    obtain ⟨c, hc⟩ := Option.isSome_iff_exists.mp h4
    have step := laStep_group acc p.1 p.2 l c h1 h2 hl hc
    simp only [List.map_cons, List.foldlM_cons, step, Option.bind_eq_bind, Option.some_bind]
    rw [ih _ (fun q hq => h q (by simp [hq]))]
    simp [specLeftFold, hl, hc]

/-- C3: for a `structure: left_associative_op` rule whose visited children
are an operand `V1` followed by the list of `[Oi, V(i+1)]` groups (each
operator a node carrying `line`/`col`, no group member `None`), the AST
builder returns the left-nested fold `((V1 O1 V2) O2 V3)…`, where each
`binary_op` node's `line` and `col` are exactly its operator's `line` and
`col` (see `specLeftFold`). -/
theorem C3_left_assoc_fold (v1 : PVal) (pairs : List (PVal × PVal))
    (h : ∀ p ∈ pairs, p.1.isNull = false ∧ p.2.isNull = false ∧
      (pvLookup p.1 "line").isSome ∧ (pvLookup p.1 "col").isSome) :
    leftAssocStructure [v1, .list (pairs.map (fun p => PVal.list [p.1, p.2]))] =
      some (specLeftFold v1 pairs) := by
  show (pairs.map (fun p => PVal.list [p.1, p.2])).foldlM laStep v1 =
    some (specLeftFold v1 pairs)
  exact laFold_spec pairs v1 h

/-- C3 witness: `8 - 2 - 1` with explicit nodes; the fold produces the
left-leaning tree with each operator's position on its `binary_op`. -/
theorem C3_left_assoc_fold_witness :
    leftAssocStructure
        [c3V1, .list [PVal.list [c3O1, c3V2], PVal.list [c3O2, c3V3]]] =
      some (.dict [("tag", .str "binary_op"), ("op", c3O2),
        ("left", .dict [("tag", .str "binary_op"), ("op", c3O1), ("left", c3V1),
          ("right", c3V2), ("line", .int 1), ("col", .int 3)]),
        ("right", c3V3), ("line", .int 1), ("col", .int 7)]) := by
  have h := C3_left_assoc_fold c3V1 [(c3O1, c3V2), (c3O2, c3V3)]
    (by
      intro p hp
      simp only [List.mem_cons, List.not_mem_nil, or_false] at hp
      rcases hp with rfl | rfl <;> exact ⟨rfl, rfl, rfl, rfl⟩)
  simpa [specLeftFold, c3V1, c3O1, c3V2, c3O2, c3V3, pvLookup, lookupEntries] using h

/-- C1: evaluating the code at the failing input.  The visitor's
`left_associative_op` branch produced `c1BinaryOp`, whose operands carry
the internal tag `expr__1` left over from normalization; `_parse_internal`
runs `_cleanup_ast` over it and returns it as a success result completely
unchanged, so the returned AST still contains a tag with `__` (the cleanup
only recurses through `children`, never through `op`/`left`/`right`).
The same happens when the `__`-tagged node is itself the root. -/
theorem C1_internal_tag_survives_parse :
    parseInternalResult false c1Text none (.ok c1BinaryOp) =
      .dict [("status", .str "success"), ("ast", c1BinaryOp)] ∧
    deepHasSepTag c1BinaryOp = true ∧
    parseInternalResult false c1Text none (.ok c1LeftOperand) =
      .dict [("status", .str "success"), ("ast", c1LeftOperand)] ∧
    sepTagged c1LeftOperand = true :=
  ⟨rfl, rfl, rfl, rfl⟩

/-- C2: whatever the outcome of the guarded block of `_parse_internal`
(a visited AST, or any of the four caught runtime errors: the matcher's
parse and incomplete-parse errors, the lexer's syntax and indentation
errors), the returned dict is either `{status: "success", ast: …}` or
`{status: "error", message: …}`; no caught error escapes as an
exception. -/
theorem C2_parse_returns_status_dict (isTok : Bool) (text : List Char)
    (tokens : Option (List Token)) (body : Except RunErr PVal) :
    (pvLookup (parseInternalResult isTok text tokens body) "status" =
        some (.str "success") ∧
      ∃ a, pvLookup (parseInternalResult isTok text tokens body) "ast" = some a) ∨
    (pvLookup (parseInternalResult isTok text tokens body) "status" =
        some (.str "error") ∧
      ∃ m, pvLookup (parseInternalResult isTok text tokens body) "message" =
        some (.str m)) := by
  cases body with
  | ok ast => exact Or.inl ⟨rfl, cleanupAst ast, rfl⟩
  | error e => exact Or.inr ⟨rfl, runErrMessage isTok text tokens e, rfl⟩

/-- C6 counterexample: for a rule reference with an `ast` block other than
a bare `name`, the transpiler emits `(X ("")?)` — the no-op optional
inside the group — not `(X (""))?` as claimed. -/
theorem C6_counterexample :
    transpileRuleN c6Node false = .ok "(X (\"\")?)" ∧
      ("(X (\"\")?)" : String) ≠ "(X (\"\"))?" :=
  ⟨rfl, by decide⟩

/-- C6 (amended): a rule reference transpiles to its bare name, except
when it carries an `ast` block with any key other than `name`, in which
case it is wrapped as `(X ("")?)` to defeat the single-item
optimization. -/
theorem C6_rule_ref_render (v : String) (a : Option AstConfig) (isTok : Bool) :
    transpileRuleN (.ruleRef v a) isTok =
      .ok (match a with
        | some cfg => if isJustAName cfg then v else "(" ++ v ++ " (\"\")?)"
        | none => v) := by
  cases a with
  | none => rfl
  | some cfg =>
    cases hc : isJustAName cfg <;> simp [transpileRuleN, hc]

/-- C7 counterexample: the classification marks a lookahead node as
*always empty* (`_is_def_always_empty` returns `True` for lookaheads), so
a rule whose body is a sequence of lookaheads naming no child is
classified always-empty and *is* reported by the lint — the opposite of
the claim. -/
theorem C7_counterexample :
    isDefAlwaysEmpty c7Grammar 10 [] c7SeqOfLookaheads = (true, []) ∧
    checkAlwaysEmptyRules c7Grammar 10 = ["s"] :=
  ⟨rfl, rfl⟩

/-- C7 (amended): a lookahead node (without `discard`, `structure` or
`leaf` in its `ast`) is a base case classified as always-empty;
consequently a rule whose body is a sequence of lookaheads with no named
part is classified always-empty and is reported by the always-empty lint,
while a rule whose top-level body is itself a lookahead is skipped by the
report. -/
theorem C7_lookahead_always_empty :
    (∀ (g : GrammarDict) (fuel : Nat) (memo : List (String × Bool))
        (x : RuleNode) (a : Option AstConfig),
        truthy (a.getD {}).discard = false →
        (a.getD {}).struct.isSome = false →
        truthy (a.getD {}).leaf = false →
        isDefAlwaysEmpty g (fuel + 1) memo (.posLook x a) = (true, memo) ∧
        isDefAlwaysEmpty g (fuel + 1) memo (.negLook x a) = (true, memo)) ∧
    checkAlwaysEmptyRules c7Grammar 10 = ["s"] ∧
    checkAlwaysEmptyRules c7Grammar2 10 = [] := by
  refine ⟨?_, rfl, rfl⟩
  intro g fuel memo x a h1 h2 h3
  constructor <;> simp [isDefAlwaysEmpty, RuleNode.astOf, h1, h2, h3]

/-- C7 witness: the amended statement at a concrete lookahead node and the
two concrete grammars. -/
theorem C7_lookahead_always_empty_witness :
    isDefAlwaysEmpty c7Grammar 1 [] (.posLook (.lit "a" none) none) = (true, []) ∧
    checkAlwaysEmptyRules c7Grammar 10 = ["s"] ∧
    checkAlwaysEmptyRules c7Grammar2 10 = [] :=
  ⟨(C7_lookahead_always_empty.1 c7Grammar 0 [] (.lit "a" none) none rfl rfl rfl).1,
   C7_lookahead_always_empty.2.1, C7_lookahead_always_empty.2.2⟩

mutual

/-- A rule node containing an empty `choice: []` never transpiles: the
first error (usually "Choice cannot be empty") propagates. -/
theorem emptyChoiceErrN (r : RuleNode) (isTok : Bool)
    (h : containsEmptyChoiceN r = true) :
    ∃ m, transpileRuleN r isTok = .error m := by
  cases r with
  | choice xs a =>
    cases xs with
    | nil => exact ⟨"Choice cannot be empty", rfl⟩
    | cons hd tl =>
      have hl : containsEmptyChoiceL (.cons hd tl) = true := by
        simpa [containsEmptyChoiceN] using h
      obtain ⟨m, hm⟩ := emptyChoiceErrL (.cons hd tl) isTok hl
      exact ⟨m, by simp only [transpileRuleN, hm]; rfl⟩
  | seq xs a =>
    cases xs with
    | nil => simp [containsEmptyChoiceN, containsEmptyChoiceL] at h
    | cons hd tl =>
      have hl : containsEmptyChoiceL (.cons hd tl) = true := by
        simpa [containsEmptyChoiceN] using h
      obtain ⟨m, hm⟩ := emptyChoiceErrL (.cons hd tl) isTok hl
      exact ⟨m, by simp only [transpileRuleN, hm]; rfl⟩
  | zeroOrMore x a =>
    obtain ⟨m, hm⟩ := emptyChoiceErrN x isTok (by simpa [containsEmptyChoiceN] using h)
    exact ⟨m, by simp only [transpileRuleN, hm]; rfl⟩
  | oneOrMore x a =>
    obtain ⟨m, hm⟩ := emptyChoiceErrN x isTok (by simpa [containsEmptyChoiceN] using h)
    exact ⟨m, by simp only [transpileRuleN, hm]; rfl⟩
  | opt x a =>
    obtain ⟨m, hm⟩ := emptyChoiceErrN x isTok (by simpa [containsEmptyChoiceN] using h)
    exact ⟨m, by simp only [transpileRuleN, hm]; rfl⟩
  | posLook x a =>
    obtain ⟨m, hm⟩ := emptyChoiceErrN x isTok (by simpa [containsEmptyChoiceN] using h)
    exact ⟨m, by simp only [transpileRuleN, hm]; rfl⟩
  | negLook x a =>
    obtain ⟨m, hm⟩ := emptyChoiceErrN x isTok (by simpa [containsEmptyChoiceN] using h)
    exact ⟨m, by simp only [transpileRuleN, hm]; rfl⟩
  | lit s a => simp [containsEmptyChoiceN] at h
  | regex s a => simp [containsEmptyChoiceN] at h
  | ruleRef n a => simp [containsEmptyChoiceN] at h
  | tok t a => simp [containsEmptyChoiceN] at h
  | subgrammar a => simp [containsEmptyChoiceN] at h

/-- Part-list version of `emptyChoiceErrN`. -/
theorem emptyChoiceErrL (xs : RuleList) (isTok : Bool)
    (h : containsEmptyChoiceL xs = true) :
    ∃ m, transpileParts xs isTok = .error m := by
  cases xs with
  | nil => simp [containsEmptyChoiceL] at h
  | cons hd tl =>
    have hor : containsEmptyChoiceN hd = true ∨ containsEmptyChoiceL tl = true := by
      simpa [containsEmptyChoiceL, Bool.or_eq_true] using h
    cases hh : transpileRuleN hd isTok with
    | error m => exact ⟨m, by simp only [transpileParts, hh]; rfl⟩
    | ok s =>
      rcases hor with h1 | h2
      · obtain ⟨m, hm⟩ := emptyChoiceErrN hd isTok h1
        rw [hm] at hh
        cases hh
      · obtain ⟨m, hm⟩ := emptyChoiceErrL tl isTok h2
        exact ⟨m, by simp only [transpileParts, hh, hm]; rfl⟩

end

/-- The rule lines of a grammar with an empty-choice rule fail to
transpile. -/
theorem emptyChoiceLinesErr (isTok : Bool) (rules : List (String × RuleNode))
    (h : ∃ p ∈ rules, containsEmptyChoiceN p.2 = true) :
    ∃ m, transpileGrammarLines isTok rules = .error m := by
  induction rules with
  | nil => simp at h
  | cons pr rest ih =>
    obtain ⟨n, r⟩ := pr
    cases hh : transpileRuleN r isTok with
    | error m => exact ⟨m, by simp only [transpileGrammarLines, hh]; rfl⟩
    | ok s =>
      rcases h with ⟨p, hp, hc⟩
      rcases List.mem_cons.mp hp with rfl | hmem
      · obtain ⟨m, hm⟩ := emptyChoiceErrN r isTok hc
        rw [hm] at hh
        cases hh
      · obtain ⟨m, hm⟩ := ih ⟨p, hmem, hc⟩
        exact ⟨m, by simp only [transpileGrammarLines, hh, hm]; rfl⟩

/-- C8: a grammar any of whose rules contains an empty `choice: []` never
produces a PEG grammar string: `transpile_grammar` (run during grammar
construction, before the matcher is built) raises a configuration error,
so construction never yields a compiled grammar from such input. -/
theorem C8_empty_choice_rejected (g : GrammarDict)
    (h : ∃ p ∈ g.rules, containsEmptyChoiceN p.2 = true) :
    ∃ m, transpileGrammarStr g = .error m := by
  obtain ⟨m, hm⟩ := emptyChoiceLinesErr g.lexer.isSome g.rules h
  exact ⟨m, by simp only [transpileGrammarStr, hm]; rfl⟩

/-- C8 witness: the concrete grammar `{rules: {start: {choice: []}}}` is
rejected. -/
theorem C8_empty_choice_rejected_witness :
    ∃ m, transpileGrammarStr c8Grammar = .error m :=
  C8_empty_choice_rejected c8Grammar
    ⟨("start", .choice .nil none), by simp [c8Grammar], rfl⟩

/-- Index bound from a successful lookup. -/
theorem getElem?_some_lt {α : Type} (l : List α) (j : Nat) (a : α)
    (h : l[j]? = some a) : j < l.length :=
  (List.getElem?_eq_some.mp h).1

/-- Looking up in `done ++ [w]`: either an index into `done` or exactly the
new element. -/
theorem appendSingle_lookup (done : List TokenSpec) (w w' : TokenSpec) (j : Nat)
    (h : (done ++ [w])[j]? = some w') :
    done[j]? = some w' ∨ (j = done.length ∧ w' = w) := by
  rw [List.getElem?_append] at h
  by_cases hj : j < done.length
  · rw [if_pos hj] at h
    exact Or.inl h
  · rw [if_neg hj] at h
    have hle : done.length ≤ j := Nat.le_of_not_lt hj
    right
    match hk : j - done.length, h with
    | 0, h =>
      have hj0 : j = done.length := by omega
      cases h
      exact ⟨hj0, rfl⟩
    | k + 1, h =>
      simp at h

/-- Lookup of an element of `done` survives appending. -/
theorem appendSingle_lookup_left (done : List TokenSpec) (w w' : TokenSpec) (j : Nat)
    (h : done[j]? = some w') : (done ++ [w])[j]? = some w' := by
  rw [List.getElem?_append, if_pos (getElem?_some_lt done j w' h)]
  exact h

/-- The appended element is found at index `done.length`. -/
theorem appendSingle_lookup_new (done : List TokenSpec) (w : TokenSpec) :
    (done ++ [w])[done.length]? = some w := by
  rw [List.getElem?_append_right (Nat.le_refl _)]
  simp

/-- The property the best-match accumulator of `selectLoop` maintains over
the already-examined prefix `xs` of the spec list: when it is `none`, no
examined spec matched; when it is `some (i, s, v)`, spec `i` is `s`, it
matched `v`, every examined match is no longer than `v`, and every
*earlier* examined match is strictly shorter (so `i` is the earliest of
the longest). -/
def SelInv (text : List Char) (pos : Nat) (xs : List TokenSpec)
    (acc : Option (Nat × TokenSpec × List Char)) : Prop :=
  (acc = none → ∀ (j : Nat) (w : TokenSpec), xs[j]? = some w → w.matchAt text pos = none) ∧
  (∀ (i : Nat) (s : TokenSpec) (v : List Char), acc = some (i, s, v) →
    xs[i]? = some s ∧ s.matchAt text pos = some v ∧
    ∀ (j : Nat) (w : TokenSpec) (u : List Char), xs[j]? = some w → w.matchAt text pos = some u →
      u.length ≤ v.length ∧ (j < i → u.length < v.length))

/-- One step of the selection loop preserves the invariant. -/
theorem selStep_inv (text : List Char) (pos : Nat) (done : List TokenSpec)
    (w : TokenSpec) (acc : Option (Nat × TokenSpec × List Char))
    (h : SelInv text pos done acc) :
    SelInv text pos (done ++ [w]) (selStep text pos done.length w acc) := by
  obtain ⟨hnone, hsome⟩ := h
  unfold selStep
  cases hw : w.matchAt text pos with
  | none =>
    cases acc with
    | none =>
      refine ⟨fun _ j w' hj => ?_, fun i s v heq => by cases heq⟩
      rcases appendSingle_lookup done w w' j hj with hl | ⟨rfl, rfl⟩
      · exact hnone rfl j w' hl
      · exact hw
    | some b =>
      obtain ⟨bi, bs, bv⟩ := b
      refine ⟨fun heq => (nomatch heq), fun i s v heq => ?_⟩
      cases heq
      obtain ⟨h1, h2, h3⟩ := hsome bi bs bv rfl
      refine ⟨appendSingle_lookup_left done w bs bi h1, h2, fun j w' u hj hu => ?_⟩
      rcases appendSingle_lookup done w w' j hj with hl | ⟨rfl, rfl⟩
      · exact h3 j w' u hl hu
      · rw [hw] at hu; cases hu
  | some u0 =>
    cases acc with
    | none =>
      refine ⟨fun heq => (nomatch heq), fun i s v heq => ?_⟩
      cases heq
      refine ⟨appendSingle_lookup_new done w, hw, fun j w' u hj hu => ?_⟩
      rcases appendSingle_lookup done w w' j hj with hl | ⟨rfl, rfl⟩
      · exact absurd hu (by rw [hnone rfl j w' hl]; exact fun hc => Option.noConfusion hc)
      · rw [hw] at hu
        cases hu
        exact ⟨Nat.le_refl _, fun hlt => absurd hlt (Nat.lt_irrefl _)⟩
    | some b =>
      obtain ⟨bi, bs, bv⟩ := b
      obtain ⟨hb1, hb2, hb3⟩ := hsome bi bs bv rfl
      have hbi_lt : bi < done.length := getElem?_some_lt done bi bs hb1
      show SelInv text pos (done ++ [w])
        (if u0.length > bv.length then some (done.length, w, u0) else some (bi, bs, bv))
      by_cases hgt : u0.length > bv.length
      · rw [if_pos hgt]
        refine ⟨fun heq => (nomatch heq), fun i s v heq => ?_⟩
        cases heq
        refine ⟨appendSingle_lookup_new done w, hw, fun j w' u hj hu => ?_⟩
        rcases appendSingle_lookup done w w' j hj with hl | ⟨rfl, rfl⟩
        · have := (hb3 j w' u hl hu).1
          exact ⟨Nat.le_of_lt (Nat.lt_of_le_of_lt this hgt),
                 fun _ => Nat.lt_of_le_of_lt this hgt⟩
        · rw [hw] at hu
          cases hu
          exact ⟨Nat.le_refl _, fun hlt => absurd hlt (Nat.lt_irrefl _)⟩
      · rw [if_neg hgt]
        refine ⟨fun heq => (nomatch heq), fun i s v heq => ?_⟩
        cases heq
        refine ⟨appendSingle_lookup_left done w bs bi hb1, hb2, fun j w' u hj hu => ?_⟩
        rcases appendSingle_lookup done w w' j hj with hl | ⟨rfl, rfl⟩
        · exact hb3 j w' u hl hu
        · rw [hw] at hu
          cases hu
          exact ⟨Nat.le_of_not_lt hgt,
                 fun hlt => absurd hbi_lt (Nat.lt_asymm hlt)⟩

/-- The selection loop establishes the invariant over the whole list. -/
theorem selectLoop_inv (text : List Char) (pos : Nat) :
    ∀ (rest done : List TokenSpec) (acc : Option (Nat × TokenSpec × List Char)),
    SelInv text pos done acc →
    SelInv text pos (done ++ rest) (selectLoop text pos rest done.length acc) := by
  intro rest
  induction rest with
  | nil =>
    intro done acc h
    rw [List.append_nil]
    exact h
  | cons w rest ih =>
    intro done acc h
    have hstep := selStep_inv text pos done w acc h
    have h2 := ih (done ++ [w]) _ hstep
    simp only [List.length_append, List.length_cons, List.length_nil,
      List.append_assoc, List.singleton_append] at h2
    exact h2

/-- C4: at every position, the lexer examines every token spec's anchored
match and selects the one with the longest match, with the
earliest-declared spec winning ties: when `selectBest` returns spec `i`
with match `v`, every spec's match is no longer than `v` and every
earlier spec's match is strictly shorter; when it returns nothing, no
spec matched at all. -/
theorem C4_longest_match_earliest_tie (specs : List TokenSpec) (text : List Char)
    (pos : Nat) :
    (selectBest specs text pos = none →
      ∀ (j : Nat) (w : TokenSpec), specs[j]? = some w → w.matchAt text pos = none) ∧
    (∀ (i : Nat) (s : TokenSpec) (v : List Char),
      selectBest specs text pos = some (i, s, v) →
      specs[i]? = some s ∧ s.matchAt text pos = some v ∧
      ∀ (j : Nat) (w : TokenSpec) (u : List Char), specs[j]? = some w →
        w.matchAt text pos = some u →
        u.length ≤ v.length ∧ (j < i → u.length < v.length)) := by
  have h := selectLoop_inv text pos specs [] none
    ⟨fun _ j w hj => by simp at hj, fun i s v heq => (nomatch heq)⟩
  simpa [SelInv, selectBest] using h

/-- C4 witness: with two single-character specs that tie at position 0 of
`"x"`, the first-declared spec is selected (the theorem applied to the
concrete selection result). -/
theorem C4_longest_match_earliest_tie_witness :
    [c4SpecA, c4SpecB][0]? = some c4SpecA ∧ c4SpecA.matchAt ['x'] 0 = some ['x'] := by
  have h := (C4_longest_match_earliest_tie [c4SpecA, c4SpecB] ['x'] 0).2 0 c4SpecA
    ['x'] (by rfl)
  exact ⟨h.1, h.2.1⟩

/-- Dropping a prefix never lengthens a list. -/
theorem dropWhile_length_le {α : Type} (p : α → Bool) (l : List α) :
    (l.dropWhile p).length ≤ l.length := by
  induction l with
  | nil => simp
  | cons a t ih =>
    rw [List.dropWhile_cons]
    by_cases hp : p a
    · simp only [if_pos hp]
      exact Nat.le_succ_of_le ih
    · simp [if_neg hp]

/-- The dedent loop pops exactly the stack levels above the new width,
emitting one DEDENT per pop, and fails when the width does not equal the
top that remains. -/
theorem dedentLoop_char (stack : List Nat) (lvl ln : Nat) :
    (((stack.dropWhile (fun x => lvl < x)).head? = some lvl) →
      dedentLoop stack lvl ln =
        .ok (stack.dropWhile (fun x => lvl < x),
          List.replicate (stack.length - (stack.dropWhile (fun x => lvl < x)).length)
            ⟨some "DEDENT", [], ln + 1, 1⟩)) ∧
    (((stack.dropWhile (fun x => lvl < x)).head? ≠ some lvl) →
      ∃ e, dedentLoop stack lvl ln = .error e) := by
  induction stack with
  | nil =>
    constructor
    · intro h; simp at h
    · intro _; exact ⟨.emptyStack ln, rfl⟩
  | cons top rest ih =>
    by_cases hlt : lvl < top
    · have hdw : (top :: rest).dropWhile (fun x => decide (lvl < x)) =
          rest.dropWhile (fun x => decide (lvl < x)) := by
        simp [List.dropWhile_cons, hlt]
      have hlen : (rest.dropWhile (fun x => decide (lvl < x))).length ≤ rest.length :=
        dropWhile_length_le _ _
      constructor
      · intro h
        rw [hdw] at h
        have hrec := ih.1 h
        simp only [hdw, dedentLoop, if_pos hlt, hrec]
        have : (top :: rest).length -
            (rest.dropWhile (fun x => decide (lvl < x))).length =
            (rest.length - (rest.dropWhile (fun x => decide (lvl < x))).length) + 1 := by
          simp only [List.length_cons]
          omega
        rw [this, List.replicate_succ]
      · intro h
        rw [hdw] at h
        obtain ⟨e, he⟩ := ih.2 h
        exact ⟨e, by simp only [dedentLoop, if_pos hlt, he]⟩
    · have hdw : (top :: rest).dropWhile (fun x => decide (lvl < x)) = top :: rest := by
        simp [List.dropWhile_cons, hlt]
      constructor
      · intro h
        rw [hdw] at h
        simp only [List.head?_cons, Option.some_inj] at h
        subst h
        simp [dedentLoop, hdw, Nat.lt_irrefl]
      · intro h
        rw [hdw] at h
        simp only [List.head?_cons, ne_eq, Option.some_inj] at h
        refine ⟨.indentation (ln + 1), ?_⟩
        have hne : ¬lvl = top := fun hc => h hc.symm
        simp [dedentLoop, hlt, hne]

/-- End-of-input dedenting emits one DEDENT per level above the bottom. -/
theorem eofDedents_replicate (stack : List Nat) (ln : Nat) :
    eofDedents stack ln = List.replicate (stack.length - 1) ⟨some "DEDENT", [], ln, 1⟩ := by
  induction stack with
  | nil => rfl
  | cons top rest ih =>
    cases rest with
    | nil => rfl
    | cons y t =>
      simp only [eofDedents, ih, List.length_cons, Nat.add_sub_cancel,
        List.replicate_succ]

/-- C5: the indent stack starts at `[0]`; a `handle_indent` match pushes
and emits one INDENT when the width exceeds the stack top, pops and emits
one DEDENT per level while the width is below the top, fails with an
indentation error when the width does not equal the top after popping,
and end of input emits one DEDENT per remaining level; on the input
`"a\n  b\n  c\n"` with an identifier spec and a `handle_indent` newline
spec, `tokenize` emits exactly `[a, INDENT, b, c, DEDENT]`. -/
theorem C5_indent_stack :
    (∀ (top : Nat) (rest : List Nat) (lvl ln : Nat), lvl > top →
      handleIndent (top :: rest) lvl ln =
        .ok (lvl :: top :: rest, [⟨some "INDENT", [], ln + 1, 1⟩])) ∧
    (∀ (top : Nat) (rest : List Nat) (lvl ln : Nat), lvl ≤ top →
      ((((top :: rest).dropWhile (fun x => lvl < x)).head? = some lvl) →
        handleIndent (top :: rest) lvl ln =
          .ok ((top :: rest).dropWhile (fun x => lvl < x),
            List.replicate
              ((top :: rest).length - ((top :: rest).dropWhile (fun x => lvl < x)).length)
              ⟨some "DEDENT", [], ln + 1, 1⟩)) ∧
      ((((top :: rest).dropWhile (fun x => lvl < x)).head? ≠ some lvl) →
        ∃ e, handleIndent (top :: rest) lvl ln = .error e)) ∧
    (∀ (stack : List Nat) (ln : Nat),
      eofDedents stack ln = List.replicate (stack.length - 1) ⟨some "DEDENT", [], ln, 1⟩) ∧
    tokenize c5Specs c5Input = .ok c5Expected := by
  refine ⟨?_, ?_, eofDedents_replicate, rfl⟩
  · intro top rest lvl ln hgt
    simp [handleIndent, hgt]
  · intro top rest lvl ln hle
    have hnotgt : ¬lvl > top := Nat.not_lt.mpr hle
    have hred : handleIndent (top :: rest) lvl ln = dedentLoop (top :: rest) lvl ln := by
      simp [handleIndent, hnotgt]
    rw [hred]
    exact dedentLoop_char (top :: rest) lvl ln

/-- C5 witness: the theorem applied at concrete stacks and the concrete
input (push case at stack `[0]` with width 2; dedent case at stack
`[2, 0]` with width 0; the scenario run). -/
theorem C5_indent_stack_witness :
    handleIndent [0] 2 1 = .ok ([2, 0], [⟨some "INDENT", [], 2, 1⟩]) ∧
    handleIndent [2, 0] 0 3 = .ok ([0], [⟨some "DEDENT", [], 4, 1⟩]) ∧
    tokenize c5Specs c5Input = .ok c5Expected := by
  refine ⟨C5_indent_stack.1 0 [] 2 1 (by decide), ?_, C5_indent_stack.2.2.2⟩
  have h := (C5_indent_stack.2.1 2 [0] 0 3 (by decide)).1 (by decide)
  simpa using h

/-- Every line start recorded while scanning from index `i` exceeds `i`. -/
theorem lineStartsAux_gt (text : List Char) :
    ∀ (i : Nat), ∀ x ∈ lineStartsAux text i, i < x := by
  induction text with
  | nil => intro i x hx; simp [lineStartsAux] at hx
  | cons c rest ih =>
    intro i x hx
    by_cases hc : c = '\n'
    · simp only [lineStartsAux, if_pos hc] at hx
      rcases List.mem_cons.mp hx with rfl | hmem
      · omega
      · have := ih (i + 1) x hmem
        omega
    · simp only [lineStartsAux, if_neg hc] at hx
      have := ih (i + 1) x hx
      omega

/-- The scanned line starts are strictly increasing. -/
theorem lineStartsAux_pairwise (text : List Char) :
    ∀ i, List.Pairwise (· < ·) (lineStartsAux text i) := by
  induction text with
  | nil => intro i; simp [lineStartsAux]
  | cons c rest ih =>
    intro i
    by_cases hc : c = '\n'
    · simp only [lineStartsAux, if_pos hc]
      exact List.Pairwise.cons
        (fun x hx => by have := lineStartsAux_gt rest (i + 1) x hx; omega)
        (ih (i + 1))
    · simp only [lineStartsAux, if_neg hc]
      exact ih (i + 1)

/-- `line_starts` is strictly increasing (its head is 0). -/
theorem lineStarts_pairwise (text : List Char) :
    List.Pairwise (· < ·) (lineStarts text) :=
  List.Pairwise.cons
    (fun x hx => lineStartsAux_gt text 0 x hx)
    (lineStartsAux_pairwise text 0)

/-- On a strictly increasing list, counting the elements `≤ x` splits the
list at the insertion point: every index below the count holds an element
`≤ x`, every index at or above it holds an element `> x` (this is the
`bisect_right` contract). -/
theorem countP_le_split (l : List Nat) (x : Nat)
    (hp : List.Pairwise (· < ·) l) :
    (∀ j, j < l.countP (fun s => decide (s ≤ x)) → l.getD j 0 ≤ x) ∧
    (∀ j, l.countP (fun s => decide (s ≤ x)) ≤ j → j < l.length → x < l.getD j 0) := by
  induction l with
  | nil =>
    constructor
    · intro j hj; simp at hj
    · intro j _ hj; simp at hj
  | cons a rest ih =>
    obtain ⟨ha, hrest⟩ := List.pairwise_cons.mp hp
    obtain ⟨ih1, ih2⟩ := ih hrest
    by_cases hax : a ≤ x
    · have hc : (a :: rest).countP (fun s => decide (s ≤ x)) =
          rest.countP (fun s => decide (s ≤ x)) + 1 := by
        simp [List.countP_cons, hax]
      constructor
      · intro j hj
        cases j with
        | zero => simpa using hax
        | succ j' =>
          rw [hc] at hj
          rw [List.getD_cons_succ]
          exact ih1 j' (by omega)
      · intro j hj hlen
        cases j with
        | zero => rw [hc] at hj; omega
        | succ j' =>
          rw [hc] at hj
          rw [List.getD_cons_succ]
          exact ih2 j' (by omega) (by simpa [List.length_cons] using hlen)
    · have hxa : x < a := Nat.lt_of_not_le hax
      have hc : (a :: rest).countP (fun s => decide (s ≤ x)) = 0 := by
        rw [List.countP_cons]
        have hcr : rest.countP (fun s => decide (s ≤ x)) = 0 := by
          rw [List.countP_eq_zero]
          intro b hb
          simp [Nat.not_le.mpr (Nat.lt_trans hxa (ha b hb))]
        simp [hcr, hax]
      constructor
      · intro j hj
        rw [hc] at hj
        omega
      · intro j _ hlen
        cases j with
        | zero => simpa using hxa
        | succ j' =>
          rw [List.getD_cons_succ]
          have hj' : j' < rest.length := by simpa [List.length_cons] using hlen
          rw [List.getD_eq_getElem rest 0 hj']
          exact Nat.lt_trans hxa (ha _ (List.getElem_mem hj'))

/-- C9: `find` clamps the offset into `[0, len]` and returns the 1-based
`(line, column)` pair where `line` is the count (insertion point) of the
greatest precomputed line start ≤ the clamped offset — the entry at
`line - 1` is ≤ the offset and every entry ≤ the offset sits at index
≤ `line - 1` — and `column` is the clamped offset minus that line start
plus 1. -/
theorem C9_find_clamps_and_bisects (text : List Char) (offset : Int) :
    (offset < 0 → clampOffset text offset = 0) ∧
    (0 ≤ offset → offset ≤ (text.length : Int) →
      (clampOffset text offset : Int) = offset) ∧
    ((text.length : Int) < offset → clampOffset text offset = text.length) ∧
    1 ≤ (findLC text offset).1 ∧
    (findLC text offset).1 ≤ (lineStarts text).length ∧
    (lineStarts text).getD ((findLC text offset).1 - 1) 0 ≤ clampOffset text offset ∧
    (∀ j, j < (lineStarts text).length →
      (lineStarts text).getD j 0 ≤ clampOffset text offset →
      j ≤ (findLC text offset).1 - 1) ∧
    (findLC text offset).2 =
      clampOffset text offset -
        (lineStarts text).getD ((findLC text offset).1 - 1) 0 + 1 := by
  have hsplit := countP_le_split (lineStarts text) (clampOffset text offset)
    (lineStarts_pairwise text)
  have hcount1 : 1 ≤ (lineStarts text).countP
      (fun s => decide (s ≤ clampOffset text offset)) := by
    simp only [lineStarts, List.countP_cons]
    have : decide (0 ≤ clampOffset text offset) = true := by simp
    simp [this]
  have hfind1 : (findLC text offset).1 =
      (lineStarts text).countP (fun s => decide (s ≤ clampOffset text offset)) := rfl
  refine ⟨?_, ?_, ?_, ?_, ?_, ?_, ?_, rfl⟩
  · intro h
    simp only [clampOffset, if_pos h]
    have h2 : ¬((0 : Int) > (text.length : Int)) := by
      simp
    rw [if_neg h2]
    rfl
  · intro h1 h2
    have hneg : ¬offset < 0 := by omega
    simp only [clampOffset, if_neg hneg]
    have h3 : ¬(offset > (text.length : Int)) := by omega
    rw [if_neg h3]
    exact Int.toNat_of_nonneg h1
  · intro h
    have hneg : ¬offset < 0 := by
      have : (0 : Int) ≤ (text.length : Int) := by positivity
      omega
    simp only [clampOffset, if_neg hneg]
    rw [if_pos (by omega)]
  · rw [hfind1]; exact hcount1
  · rw [hfind1]; exact List.countP_le_length _
  · rw [hfind1]
    exact hsplit.1 _ (by omega)
  · intro j hj hle
    by_contra hgt
    rw [hfind1] at hgt
    have hge : (lineStarts text).countP
        (fun s => decide (s ≤ clampOffset text offset)) ≤ j := by omega
    have := hsplit.2 j hge hj
    omega

/-- C9 witness: the theorem applied at `"ab\ncd"` and offset 4 (the line
starts are `[0, 3]`; the result is line 2, column 2), with the bound part
discharged at the concrete index 1. -/
theorem C9_find_clamps_and_bisects_witness :
    lineStarts ['a', 'b', '\n', 'c', 'd'] = [0, 3] ∧
    findLC ['a', 'b', '\n', 'c', 'd'] 4 = (2, 2) ∧
    (1 : Nat) ≤ 2 - 1 := by
  refine ⟨rfl, rfl, ?_⟩
  have h := (C9_find_clamps_and_bisects ['a', 'b', '\n', 'c', 'd'] 4).2.2.2.2.2.2.1
    1 (by decide) (by decide)
  exact h

/-- Looking up the key just written. -/
theorem dictInsert_lookup_same (d : List (String × PVal)) (k : String) (v : PVal) :
    lookupEntries (dictInsert d k v) k = some v := by
  induction d with
  | nil => simp [dictInsert, lookupEntries]
  | cons e rest ih =>
    obtain ⟨k0, v0⟩ := e
    by_cases hk : k0 = k
    · simp [dictInsert, lookupEntries, hk]
    · simp [dictInsert, lookupEntries, hk, ih]

/-- Writing one key leaves the others unchanged. -/
theorem dictInsert_lookup_other (d : List (String × PVal)) (k k' : String) (v : PVal)
    (h : k' ≠ k) : lookupEntries (dictInsert d k v) k' = lookupEntries d k' := by
  have hne : ¬k = k' := fun hc => h hc.symm
  induction d with
  | nil => simp [dictInsert, lookupEntries, hne]
  | cons e rest ih =>
    obtain ⟨k0, v0⟩ := e
    by_cases hk : k0 = k
    · subst hk
      simp [dictInsert, lookupEntries, hne]
    · simp [dictInsert, lookupEntries, hk, ih]

/-- If no remaining part carries the name, the loop leaves its binding
unchanged. -/
theorem buildNamedLoop_no_name (children : List PVal) (l : List RuleNode)
    (n : String) :
    ∀ (i : Nat) (acc : List (String × PVal)),
    (∀ p ∈ l, p.astOf.bind (fun a => a.name) ≠ some n) →
    lookupEntries (buildNamedLoop children l i acc) n = lookupEntries acc n := by
  induction l with
  | nil => intro i acc _; rfl
  | cons p rest ih =>
    intro i acc h
    have hp := h p (by simp)
    simp only [buildNamedLoop]
    cases hname : p.astOf.bind (fun a => a.name) with
    | none =>
      exact ih (i + 1) acc (fun q hq => h q (by simp [hq]))
    | some m =>
      have hm : m ≠ n := fun hc => hp (by rw [hname, hc])
      rw [ih (i + 1) _ (fun q hq => h q (by simp [hq]))]
      exact dictInsert_lookup_other acc m n _ (fun hc => hm hc.symm)

/-- If the part at (relative) index `i` is the only one named `n`, the
loop binds `n` to the child at absolute index `i0 + i`, or to the empty
list when there is no such child. -/
theorem buildNamedLoop_named (children : List PVal) (l : List RuleNode) (n : String) :
    ∀ (i : Nat) (hi : i < l.length) (i0 : Nat) (acc : List (String × PVal)),
    (l.get ⟨i, hi⟩).astOf.bind (fun a => a.name) = some n →
    (∀ (j : Nat) (hj : j < l.length), j ≠ i →
      (l.get ⟨j, hj⟩).astOf.bind (fun a => a.name) ≠ some n) →
    lookupEntries (buildNamedLoop children l i0 acc) n =
      some (if h : i0 + i < children.length then children.get ⟨i0 + i, h⟩
            else .list []) := by
  induction l with
  | nil => intro i hi; simp at hi
  | cons p rest ih =>
    intro i hi i0 acc hname huniq
    cases i with
    | zero =>
      have hname0 : p.astOf.bind (fun a => a.name) = some n := hname
      simp only [buildNamedLoop, hname0]
      have hrest : ∀ q ∈ rest, q.astOf.bind (fun a => a.name) ≠ some n := by
        intro q hq
        obtain ⟨j, hqj⟩ := List.mem_iff_get.mp hq
        have hjlt : (j : Nat) + 1 < (p :: rest).length := by
          have := j.isLt
          simp only [List.length_cons]
          omega
        have h2 := huniq ((j : Nat) + 1) hjlt (Nat.succ_ne_zero _)
        rw [← hqj]
        exact h2
      rw [buildNamedLoop_no_name children rest n (i0 + 1) _ hrest]
      rw [dictInsert_lookup_same]
      rfl
    | succ i' =>
      have hi' : i' < rest.length := by
        simp only [List.length_cons] at hi
        omega
      have hname' : (rest.get ⟨i', hi'⟩).astOf.bind (fun a => a.name) = some n := hname
      have huniq' : ∀ (j : Nat) (hj : j < rest.length), j ≠ i' →
          (rest.get ⟨j, hj⟩).astOf.bind (fun a => a.name) ≠ some n := by
        intro j hj hne
        exact huniq (j + 1) (by simp only [List.length_cons]; omega) (by omega)
      have hidx : i0 + 1 + i' = i0 + (i' + 1) := by omega
      simp only [buildNamedLoop]
      cases hpn : p.astOf.bind (fun a => a.name) with
      | none =>
        rw [ih i' hi' (i0 + 1) acc hname' huniq', hidx]
      | some m =>
        rw [ih i' hi' (i0 + 1) _ hname' huniq', hidx]

/-- C10: in default node creation for a sequence rule, when the i-th
child-producing (non-lookahead, non-discarded) part carries `ast.name`
but there is no i-th surviving visited child, the name is still bound in
the node's children mapping — to the empty list `[]` — rather than being
omitted. -/
theorem C10_missing_named_child_is_empty_list (g : GrammarDict)
    (parts : List RuleNode) (children : List PVal) (i : Nat) (n : String)
    (hi : i < (childProducingParts g parts).length)
    (hname : ((childProducingParts g parts).get ⟨i, hi⟩).astOf.bind
      (fun a => a.name) = some n)
    (hlen : children.length ≤ i)
    (huniq : ∀ (j : Nat) (hj : j < (childProducingParts g parts).length), j ≠ i →
      ((childProducingParts g parts).get ⟨j, hj⟩).astOf.bind
        (fun a => a.name) ≠ some n) :
    lookupEntries (buildNamedChildren g parts children) n = some (.list []) := by
  have h := buildNamedLoop_named children (childProducingParts g parts) n i hi 0 []
    hname huniq
  rw [buildNamedChildren, h]
  rw [dif_neg (by omega)]

/-- C10 witness: a single literal part named `item` with no surviving
children is bound to `[]`. -/
theorem C10_missing_named_child_is_empty_list_witness :
    lookupEntries (buildNamedChildren c10Grammar [c10Part] []) "item" =
      some (.list []) := by
  have hlen : ([] : List PVal).length ≤ 0 := by decide
  refine C10_missing_named_child_is_empty_list c10Grammar [c10Part] [] 0 "item"
    (by decide) rfl hlen ?_
  intro j hj hne
  have : j = 0 := by
    have : (childProducingParts c10Grammar [c10Part]).length = 1 := rfl
    omega
  exact absurd this hne
